import Mathlib

/-!
# hero.js : quantile binning, radius interpolation, projection and envelope

A shallow embedding of the arithmetic core of `assets/hero.js`.

JavaScript numbers are modelled as extended rationals `JsNum`: `NaN`, `-Infinity`,
a finite rational, `+Infinity`.  Finite arithmetic is exact (no rounding) and the
two zeros of IEEE arithmetic are identified (a division by zero takes the zero
as `+0`).  The value `undefined`, which only arises from an out-of-range array
read, is modelled as `NaN` (both make every comparison false).
-/

namespace Hero

/-- A JavaScript number as an extended rational. -/
inductive JsNum where
  | nan : JsNum
  | ninf : JsNum
  | fin (q : ℚ) : JsNum
  | pinf : JsNum
  deriving DecidableEq

namespace JsNum

/-- The test `Number.isFinite`. -/
def isFinite : JsNum → Bool
  | fin _ => true
  | _ => false

/-- The comparison `a > b`; false as soon as one side is `NaN`. -/
def gt : JsNum → JsNum → Bool
  | nan, _ => false
  | _, nan => false
  | ninf, _ => false
  | _, pinf => false
  | fin _, ninf => true
  | pinf, ninf => true
  | pinf, fin _ => true
  | fin a, fin b => decide (b < a)

/-- The comparison `a < b`. -/
def lt (a b : JsNum) : Bool := gt b a

/-- The comparison `a <= b`; false as soon as one side is `NaN`. -/
def le : JsNum → JsNum → Bool
  | nan, _ => false
  | _, nan => false
  | ninf, _ => true
  | _, pinf => true
  | fin _, ninf => false
  | pinf, ninf => false
  | pinf, fin _ => false
  | fin a, fin b => decide (a ≤ b)

/-- Unary minus. -/
def neg : JsNum → JsNum
  | nan => nan
  | ninf => pinf
  | fin q => fin (-q)
  | pinf => ninf

/-- The sum `a + b`. -/
def add : JsNum → JsNum → JsNum
  | nan, _ => nan
  | _, nan => nan
  | pinf, ninf => nan
  | ninf, pinf => nan
  | pinf, _ => pinf
  | _, pinf => pinf
  | ninf, _ => ninf
  | _, ninf => ninf
  | fin a, fin b => fin (a + b)

/-- The difference `a - b`. -/
def sub (a b : JsNum) : JsNum := add a (neg b)

/-- An infinity of the sign of `q * s`, where `s` is `+1` for `pos = true`; `NaN` when `q = 0`. -/
def infTimes (pos : Bool) (q : ℚ) : JsNum :=
  if q = 0 then nan else if decide (0 < q) = pos then pinf else ninf

/-- The product `a * b`. -/
def mul : JsNum → JsNum → JsNum
  | nan, _ => nan
  | _, nan => nan
  | pinf, pinf => pinf
  | ninf, ninf => pinf
  | pinf, ninf => ninf
  | ninf, pinf => ninf
  | pinf, fin q => infTimes true q
  | fin q, pinf => infTimes true q
  | ninf, fin q => infTimes false q
  | fin q, ninf => infTimes false q
  | fin a, fin b => fin (a * b)

/-- The quotient `a / b`; a zero divisor is taken as `+0`. -/
def div : JsNum → JsNum → JsNum
  | nan, _ => nan
  | _, nan => nan
  | pinf, pinf => nan
  | pinf, ninf => nan
  | ninf, pinf => nan
  | ninf, ninf => nan
  | fin _, pinf => fin 0
  | fin _, ninf => fin 0
  | pinf, fin q => if 0 ≤ q then pinf else ninf
  | ninf, fin q => if 0 ≤ q then ninf else pinf
  | fin a, fin b => if b = 0 then (if a = 0 then nan else if 0 < a then pinf else ninf)
      else fin (a / b)

/-- The function `Math.min` of two arguments. -/
def min : JsNum → JsNum → JsNum
  | nan, _ => nan
  | _, nan => nan
  | ninf, _ => ninf
  | _, ninf => ninf
  | pinf, b => b
  | a, pinf => a
  | fin a, fin b => fin (Min.min a b)

/-- The function `Math.max` of two arguments. -/
def max : JsNum → JsNum → JsNum
  | nan, _ => nan
  | _, nan => nan
  | pinf, _ => pinf
  | _, pinf => pinf
  | ninf, b => b
  | a, ninf => a
  | fin a, fin b => fin (Max.max a b)

/-- Truthiness of a number: everything but `0` and `NaN`. -/
def truthy : JsNum → Bool
  | nan => false
  | fin q => decide (q ≠ 0)
  | _ => true

/-- The expression `a || b` on numbers. -/
def orElse (a b : JsNum) : JsNum := if truthy a then a else b

end JsNum

open JsNum

/-! ## Helpers -/

/-- Source: `const clamp = (v, a, b) => Math.max(a, Math.min(b, v));` -/
def clamp (v a b : JsNum) : JsNum := JsNum.max a (JsNum.min b v)

/-- Source: `const lerp = (a, b, t) => a + (b - a) * t;` -/
def lerp (a b t : JsNum) : JsNum := add a (mul (sub b a) t)

/-- Source: `const R_MIN = 1.2;` -/
def R_MIN : JsNum := fin (6 / 5)

/-- Source: `const R_MAX = 12.0;` -/
def R_MAX : JsNum := fin 12

/-- The order induced by the comparator `(a,b) => a - b` of `sort`: `a` may stay before `b`
unless `a - b` is positive. -/
def cmpLE (a b : JsNum) : Prop := gt (sub a b) (fin 0) = false

instance : DecidableRel cmpLE := fun a b => by unfold cmpLE; infer_instance

/-- The array read `v[idx]` for an integral number `idx`; out of range reads `undefined`. -/
def readAt (v : List JsNum) (idx : ℤ) : JsNum :=
  if idx < 0 then nan else (v[idx.toNat]?).getD nan

/-- The body of the loop of `quantileCuts` at iteration `i`: `v[Math.floor((i / k) * (v.length - 1))]`. -/
def cutAt (v : List JsNum) (k i : ℕ) : JsNum :=
  readAt v ⌊((i : ℚ) / (k : ℚ)) * ((v.length : ℚ) - 1)⌋

/-- The function `quantileCuts(values, k)`. -/
def quantileCuts (values : List JsNum) (k : ℕ) : List JsNum :=
  let v := (values.filter isFinite).insertionSort cmpLE
  if v.length = 0 then List.replicate (k - 1) (fin 0)
  else (List.range (k - 1)).map (fun j => cutAt v k (j + 1))

/-- The function `binIndex(x, cuts)`: the loop `while (i < cuts.length && x > cuts[i]) i++`,
unrolled over the remaining suffix of `cuts`. -/
def binIndex (x : JsNum) : List JsNum → ℕ
  | [] => 0
  | c :: cs => if gt x c then binIndex x cs + 1 else 0

/-! ## Projection -/

/-- A record of `raw` in `loadData`: `{ lon, lat, tab, lap, phone }`. -/
structure RawPoint where
  lon : JsNum
  lat : JsNum
  tab : JsNum
  lap : JsNum
  phone : JsNum

/-- A record of `raw` after `projectToScreen` attached the fields `x` and `y`. -/
structure Projected where
  d : RawPoint
  x : JsNum
  y : JsNum

/-- The four variables `minX, minY, maxX, maxY` of `projectToScreen`. -/
structure BBox where
  minX : JsNum
  minY : JsNum
  maxX : JsNum
  maxY : JsNum

/-- One iteration of the first loop of `projectToScreen`. -/
def bboxStep (b : BBox) (p : RawPoint) : BBox :=
  { minX := JsNum.min b.minX p.lon
    maxX := JsNum.max b.maxX p.lon
    minY := JsNum.min b.minY p.lat
    maxY := JsNum.max b.maxY p.lat }

/-- The first loop of `projectToScreen`, from `Infinity, Infinity, -Infinity, -Infinity`. -/
def bbox (points : List RawPoint) : BBox :=
  points.foldl bboxStep { minX := pinf, minY := pinf, maxX := ninf, maxY := ninf }

/-- The function `projectToScreen(points)`; the globals `W` and `H` (canvas size) are parameters,
and the list of records with `x`, `y` attached is returned. -/
def projectToScreen (W H : JsNum) (points : List RawPoint) : List Projected :=
  let b := bbox points
  let pad := fin (1 / 10)
  let bw := orElse (sub b.maxX b.minX) (fin 1)
  let bh := orElse (sub b.maxY b.minY) (fin 1)
  let sx := div (mul W (sub (fin 1) (mul pad (fin 2)))) bw
  let sy := div (mul H (sub (fin 1) (mul pad (fin 2)))) bh
  let s := JsNum.min sx sy
  let cx := div (add b.minX b.maxX) (fin 2)
  let cy := div (add b.minY b.maxY) (fin 2)
  let ox := mul W (fin (17 / 25))
  let oy := mul H (fin (13 / 25))
  points.map fun p =>
    { d := p
      x := add (mul (sub p.lon cx) s) ox
      y := add (mul (neg (sub p.lat cy)) s) oy }

/-! ## Data loading -/

/-- The `geometry` of a GeoJSON feature; each coordinate stands for its coercion by `Number`. -/
structure Geometry where
  type : String
  coordinates : Option (List JsNum)

/-- The three properties read from a feature; a property that is present stands for its
coercion by `Number`, `none` is a property that is missing. -/
structure Props where
  tabE : Option JsNum
  lapE : Option JsNum
  phoneE : Option JsNum

/-- A GeoJSON feature as far as `loadData` reads it. -/
structure Feature where
  geometry : Option Geometry
  properties : Option Props

/-- The coercion `Number(v)` of a property that may be missing: `Number(undefined)` is `NaN`. -/
def toNumber : Option JsNum → JsNum
  | none => nan
  | some v => v

/-- The body of the loop over `feats` in `loadData`: `none` is `continue`,
`some r` is `raw.push(r)`. -/
def featureToRaw (f : Feature) : Option RawPoint :=
  match f.geometry with
  | none => none
  | some g =>
    if g.type ≠ "Point" then none
    else
      match g.coordinates with
      | none => none
      | some coords =>
        if coords.length < 2 then none
        else
          let props : Props := f.properties.getD { tabE := none, lapE := none, phoneE := none }
          some { lon := (coords[0]?).getD nan
                 lat := (coords[1]?).getD nan
                 tab := toNumber props.tabE
                 lap := toNumber props.lapE
                 phone := toNumber props.phoneE }

/-- The array `raw` of `loadData`. -/
def collectRaw (feats : List Feature) : List RawPoint := feats.filterMap featureToRaw

/-- An element of `points`: `{ x, y, rTab, rLap, rPhone, delay, phase, glow }`.  The field
`phase` holds the coefficient of `Math.PI` in `Math.random() * Math.PI * 2`. -/
structure Point where
  x : JsNum
  y : JsNum
  rTab : JsNum
  rLap : JsNum
  rPhone : JsNum
  delay : JsNum
  phase : JsNum
  glow : JsNum

/-- Source: `const BLANK_MS = 700;` -/
def BLANK_MS : JsNum := fin 700

/-- Source: `const EMERGE_WINDOW_MS = 1700;` -/
def EMERGE_WINDOW_MS : JsNum := fin 1700

/-- The three cut lists `cutsTab`, `cutsLap`, `cutsPhone` of `loadData`. -/
structure Cuts where
  tab : List JsNum
  lap : List JsNum
  phone : List JsNum

/-- The cut lists computed by `loadData` from `raw`, with 6 bins. -/
def cutsOf (raw : List RawPoint) : Cuts :=
  { tab := quantileCuts (raw.map fun d => d.tab) 6
    lap := quantileCuts (raw.map fun d => d.lap) 6
    phone := quantileCuts (raw.map fun d => d.phone) 6 }

/-- The callback of `points = raw.map(...)` in `loadData`; `u1 u2 u3` are the results of its
three calls of `Math.random()`. -/
def mkPoint (c : Cuts) (p : Projected) (u1 u2 u3 : ℚ) : Point :=
  let bTab := binIndex p.d.tab c.tab
  let bLap := binIndex p.d.lap c.lap
  let bPhone := binIndex p.d.phone c.phone
  let k : JsNum := fin 5
  { x := p.x
    y := p.y
    rTab := lerp R_MIN R_MAX (div (fin bTab) k)
    rLap := lerp R_MIN R_MAX (div (fin bLap) k)
    rPhone := lerp R_MIN R_MAX (div (fin bPhone) k)
    delay := add BLANK_MS (mul (fin u1) EMERGE_WINDOW_MS)
    phase := mul (fin u2) (fin 2)
    glow := add (fin (4 / 5)) (mul (fin u3) (fin (3 / 5))) }

/-- The array `points` of `loadData` before its final sort; `rnd n` is the result of the
`n`-th call of `Math.random()`. -/
def buildPoints (W H : JsNum) (raw : List RawPoint) (rnd : ℕ → ℚ) : List Point :=
  (projectToScreen W H raw).mapIdx fun j p =>
    mkPoint (cutsOf raw) p (rnd (3 * j)) (rnd (3 * j + 1)) (rnd (3 * j + 2))

/-- The part of `loadData` after the response was parsed: from the feature list `feats` to the
final value of `points`, sorted by `delay`. -/
def loadData (W H : JsNum) (feats : List Feature) (rnd : ℕ → ℚ) : List Point :=
  (buildPoints W H (collectRaw feats) rnd).insertionSort fun a b => cmpLE a.delay b.delay

/-- The three metrics of a point. -/
inductive Metric where
  | tab : Metric
  | lap : Metric
  | phone : Metric
  deriving DecidableEq

/-- The raw value of a metric in a record of `raw`. -/
def Metric.value : Metric → RawPoint → JsNum
  | .tab, d => d.tab
  | .lap, d => d.lap
  | .phone, d => d.phone

/-- The cut list of a metric. -/
def Metric.cuts : Metric → Cuts → List JsNum
  | .tab, c => c.tab
  | .lap, c => c.lap
  | .phone, c => c.phone

/-- The radius of a metric in an element of `points`. -/
def Metric.radius : Metric → Point → JsNum
  | .tab, p => p.rTab
  | .lap, p => p.rLap
  | .phone, p => p.rPhone

/-! ## Animation envelope -/

/-- The expression `u*u*(3 - 2*u)` of `frame`. -/
def smoothstep (u : JsNum) : JsNum := mul (mul u u) (sub (fin 3) (mul (fin 2) u))

/-- The value of `env` computed in `frame` from `cyc`; the constants `CYCLE_MS`, `FADE_IN_MS`
and `FADE_OUT_MS`, which the source uses without defining them, are parameters. -/
def envelope (CYCLE_MS FADE_IN_MS FADE_OUT_MS cyc : JsNum) : JsNum :=
  if lt cyc FADE_IN_MS then
    smoothstep (clamp (div cyc FADE_IN_MS) (fin 0) (fin 1))
  else if gt cyc (sub CYCLE_MS FADE_OUT_MS) then
    smoothstep (clamp (div (sub CYCLE_MS cyc) FADE_OUT_MS) (fin 0) (fin 1))
  else fin 1

/-! ## Auxiliary definitions used in the statements and proofs -/

/-- The rational carried by a finite number. -/
def toRat : JsNum → Option ℚ
  | fin q => some q
  | _ => none

/-- The rationals behind the array `v` of `quantileCuts`. -/
def sortedFinite (values : List JsNum) : List ℚ :=
  (values.filterMap toRat).insertionSort (· ≤ ·)

/-- The record `p` with `dLon` added to `lon` and `dLat` added to `lat`. -/
def translate (dLon dLat : ℚ) (p : RawPoint) : RawPoint :=
  { p with lon := add p.lon (fin dLon), lat := add p.lat (fin dLat) }

/-- The bounding box `b` moved by `(dLon, dLat)`. -/
def BBox.translate (dLon dLat : ℚ) (b : BBox) : BBox :=
  { minX := add b.minX (fin dLon)
    minY := add b.minY (fin dLat)
    maxX := add b.maxX (fin dLon)
    maxY := add b.maxY (fin dLat) }

/-- Two records with tablet values 1 and 2, at `(0, 0)` and `(1, 1)`. -/
def sampleRaw : List RawPoint :=
  [⟨fin 0, fin 0, fin 1, fin 0, fin 0⟩, ⟨fin 1, fin 1, fin 2, fin 0, fin 0⟩]

/-- A feature list with one point feature at `(0, 0)` whose `lapE` property is missing. -/
def sampleFeatures : List Feature :=
  [⟨some ⟨"Point", some [fin 0, fin 0]⟩, some ⟨some (fin 3), none, some pinf⟩⟩]

/-! ## Comparisons -/

theorem gt_fin_fin (a b : ℚ) : gt (fin a) (fin b) = decide (b < a) := rfl

theorem le_fin_fin (a b : ℚ) : le (fin a) (fin b) = decide (a ≤ b) := rfl

/-- `x > c` is kept when `x` grows. -/
theorem gt_of_le_of_gt {x y c : JsNum} (hxy : le x y = true) (hx : gt x c = true) :
    gt y c = true := by
  cases x <;> cases y <;> cases c <;> simp_all [JsNum.le, JsNum.gt]
  exact lt_of_lt_of_le hx hxy

/-- `c < x` is kept when `c` shrinks. -/
theorem gt_of_gt_of_le {x c c' : JsNum} (hc : le c' c = true) (hx : gt x c = true) :
    gt x c' = true := by
  cases x <;> cases c' <;> cases c <;> simp_all [JsNum.le, JsNum.gt]
  exact lt_of_le_of_lt hc hx

theorem binIndex_le_length (x : JsNum) (cuts : List JsNum) : binIndex x cuts ≤ cuts.length := by
  induction cuts with
  | nil => simp [binIndex]
  | cons c cs ih =>
    unfold binIndex
    split <;> simp [ih]

theorem binIndex_mono (cuts : List JsNum) {x1 x2 : JsNum} (h : le x1 x2 = true) :
    binIndex x1 cuts ≤ binIndex x2 cuts := by
  induction cuts with
  | nil => simp [binIndex]
  | cons c cs ih =>
    unfold binIndex
    by_cases h1 : gt x1 c = true
    · rw [if_pos h1, if_pos (gt_of_le_of_gt h h1)]
      exact Nat.succ_le_succ ih
    · rw [if_neg h1]
      exact Nat.zero_le _

theorem binIndex_eq_countP (x : JsNum) (cuts : List JsNum) (hs : cuts.Pairwise fun a b => le a b = true) :
    binIndex x cuts = cuts.countP fun c => lt c x := by
  induction cuts with
  | nil => simp [binIndex]
  | cons c cs ih =>
    rw [List.pairwise_cons] at hs
    unfold binIndex
    by_cases h1 : gt x c = true
    · rw [if_pos h1, ih hs.2, List.countP_cons_of_pos _ _ (by simpa [JsNum.lt] using h1)]
    · rw [if_neg h1, List.countP_cons_of_neg _ _ (by simpa [JsNum.lt] using h1)]
      symm
      rw [List.countP_eq_zero]
      intro c' hc' hlt
      exact h1 (gt_of_gt_of_le (hs.1 c' hc') (by simpa [JsNum.lt] using hlt))

/-! ## The sorted finite values -/

theorem filter_isFinite (values : List JsNum) :
    values.filter isFinite = (values.filterMap toRat).map fin := by
  induction values with
  | nil => rfl
  | cons a l ih => cases a <;> simp [JsNum.isFinite, toRat, ih]

theorem mem_filterMap_toRat (values : List JsNum) (q : ℚ) :
    q ∈ values.filterMap toRat ↔ fin q ∈ values := by
  rw [List.mem_filterMap]
  constructor
  · rintro ⟨a, ha, h⟩
    cases a <;> simp [toRat] at h
    subst h
    exact ha
  · intro h
    exact ⟨fin q, h, rfl⟩

theorem cmpLE_fin (a b : ℚ) : cmpLE (fin a) (fin b) ↔ a ≤ b := by
  simp [cmpLE, JsNum.sub, JsNum.neg, JsNum.add, JsNum.gt]

theorem sort_map_fin (l : List ℚ) :
    (l.map fin).insertionSort cmpLE = (l.insertionSort (· ≤ ·)).map fin :=
  (List.map_insertionSort (r := (· ≤ ·)) (s := cmpLE) fin l
    (fun a _ b _ => (cmpLE_fin a b).symm)).symm

theorem sort_filter_eq (values : List JsNum) :
    (values.filter isFinite).insertionSort cmpLE = (sortedFinite values).map fin := by
  rw [filter_isFinite, sort_map_fin, sortedFinite]

theorem sortedFinite_sorted (values : List JsNum) : (sortedFinite values).Sorted (· ≤ ·) :=
  List.sorted_insertionSort _ _

theorem mem_sortedFinite (values : List JsNum) (q : ℚ) :
    q ∈ sortedFinite values ↔ fin q ∈ values := by
  rw [sortedFinite, List.mem_insertionSort, mem_filterMap_toRat]

/-- The index computed in the loop of `quantileCuts`, as a natural number. -/
theorem floor_index (k i n : ℕ) (hn : 1 ≤ n) :
    ⌊((i : ℚ) / (k : ℚ)) * ((n : ℚ) - 1)⌋ = ((i * (n - 1) / k : ℕ) : ℤ) := by
  have h : ((i : ℚ) / (k : ℚ)) * ((n : ℚ) - 1) = ((i * (n - 1) : ℕ) : ℚ) / (k : ℚ) := by
    push_cast [Nat.cast_sub hn]
    ring
  rw [h, Rat.floor_natCast_div_natCast]
  norm_cast

theorem index_lt (k i n : ℕ) (hn : 1 ≤ n) (hik : i ≤ k) (hk : 0 < k) : i * (n - 1) / k < n := by
  rw [Nat.div_lt_iff_lt_mul hk]
  calc i * (n - 1) ≤ k * (n - 1) := Nat.mul_le_mul_right _ hik
    _ < k * n := Nat.mul_lt_mul_of_pos_left (by omega) hk
    _ = n * k := Nat.mul_comm _ _

theorem cutAt_map_fin (qs : List ℚ) (k i : ℕ) (hn : 1 ≤ qs.length) :
    cutAt (qs.map fin) k i = ((qs.map fin)[i * (qs.length - 1) / k]?).getD nan := by
  unfold cutAt readAt
  rw [List.length_map, floor_index k i qs.length hn,
    if_neg (not_lt.mpr (Int.natCast_nonneg _)), Int.toNat_ofNat]

theorem cutAt_eq (qs : List ℚ) (k i : ℕ) (hn : 1 ≤ qs.length) (hik : i ≤ k) (hk : 0 < k) :
    cutAt (qs.map fin) k i = fin (qs.get ⟨i * (qs.length - 1) / k, index_lt k i _ hn hik hk⟩) := by
  rw [cutAt_map_fin qs k i hn]
  simp [List.getElem?_eq_getElem (index_lt k i _ hn hik hk)]

theorem quantileCuts_length (values : List JsNum) (k : ℕ) :
    (quantileCuts values k).length = k - 1 := by
  unfold quantileCuts
  simp only []
  split <;> simp

theorem quantileCuts_of_empty (values : List JsNum) (k : ℕ) (h : sortedFinite values = []) :
    quantileCuts values k = List.replicate (k - 1) (fin 0) := by
  unfold quantileCuts
  simp only [sort_filter_eq, h, List.map_nil, List.length_nil, if_true]

theorem quantileCuts_of_ne (values : List JsNum) (k : ℕ) (h : 1 ≤ (sortedFinite values).length) :
    quantileCuts values k = (List.range (k - 1)).map fun j =>
      fin ((sortedFinite values).getD ((j + 1) * ((sortedFinite values).length - 1) / k) 0) := by
  unfold quantileCuts
  simp only [sort_filter_eq, List.length_map]
  rw [if_neg (by omega)]
  apply List.map_congr_left
  intro j hj
  rw [List.mem_range] at hj
  rw [cutAt_eq _ k (j + 1) h (by omega) (by omega), List.getD_eq_getElem _ _
    (index_lt k (j + 1) _ h (by omega) (by omega))]
  rfl

theorem no_finite_of_empty (values : List JsNum) (h : sortedFinite values = []) :
    ∀ v ∈ values, isFinite v = false := by
  intro v hv
  cases v <;> simp [JsNum.isFinite]
  rename_i q
  have := (mem_sortedFinite values q).mpr hv
  simp [h] at this

/-- What `quantileCuts` returns: `k - 1` finite numbers in non-decreasing order, all of them
taken from `values`, or all `0` when `values` has no finite element. -/
theorem quantileCuts_spec (values : List JsNum) (k : ℕ) :
    (quantileCuts values k).length = k - 1 ∧
    (quantileCuts values k).Pairwise (fun a b => le a b = true) ∧
    ∀ c ∈ quantileCuts values k, isFinite c = true ∧
      (c ∈ values ∨ ((∀ v ∈ values, isFinite v = false) ∧ c = fin 0)) := by
  refine ⟨quantileCuts_length values k, ?_, ?_⟩
  · rcases Nat.eq_zero_or_pos (sortedFinite values).length with h0 | hpos
    · rw [quantileCuts_of_empty values k (List.length_eq_zero.mp h0)]
      rw [List.pairwise_replicate]
      right
      simp [JsNum.le]
    · rw [quantileCuts_of_ne values k hpos, List.pairwise_map]
      refine (List.pairwise_lt_range (k - 1)).imp_of_mem ?_
      intro a b ha hb hab
      rw [List.mem_range] at ha hb
      have hk : 0 < k := by omega
      have hia := index_lt k (a + 1) _ hpos (by omega) hk
      have hib := index_lt k (b + 1) _ hpos (by omega) hk
      rw [List.getD_eq_getElem _ _ hia, List.getD_eq_getElem _ _ hib, le_fin_fin,
        decide_eq_true_eq]
      apply (sortedFinite_sorted values).rel_get_of_le (a := ⟨_, hia⟩) (b := ⟨_, hib⟩)
      show (a + 1) * ((sortedFinite values).length - 1) / k ≤
        (b + 1) * ((sortedFinite values).length - 1) / k
      exact Nat.div_le_div_right (Nat.mul_le_mul_right _ (by omega))
  · intro c hc
    rcases Nat.eq_zero_or_pos (sortedFinite values).length with h0 | hpos
    · have he := List.length_eq_zero.mp h0
      rw [quantileCuts_of_empty values k he] at hc
      have hc0 := List.eq_of_mem_replicate hc
      subst hc0
      exact ⟨rfl, Or.inr ⟨no_finite_of_empty values he, rfl⟩⟩
    · rw [quantileCuts_of_ne values k hpos, List.mem_map] at hc
      obtain ⟨j, hj, rfl⟩ := hc
      rw [List.mem_range] at hj
      have hi := index_lt k (j + 1) _ hpos (by omega) (by omega)
      refine ⟨rfl, Or.inl ?_⟩
      rw [List.getD_eq_getElem _ _ hi, ← mem_sortedFinite]
      exact List.getElem_mem _

/-! ## Extreme values -/

theorem binIndex_eq_zero_of_head {x c : JsNum} {cs : List JsNum} (h : gt x c = false) :
    binIndex x (c :: cs) = 0 := by
  simp [binIndex, h]

theorem binIndex_eq_length {x : JsNum} {cuts : List JsNum} (h : ∀ c ∈ cuts, gt x c = true) :
    binIndex x cuts = cuts.length := by
  induction cuts with
  | nil => rfl
  | cons c cs ih =>
    unfold binIndex
    rw [if_pos (h c (List.mem_cons_self _ _)), ih fun c' hc' => h c' (List.mem_cons_of_mem _ hc')]
    rfl

/-- The radius given to bin `b`, as computed in `loadData`. -/
theorem radius_eq (b : ℕ) :
    lerp R_MIN R_MAX (div (fin (b : ℚ)) (fin 5)) = fin (6 / 5 + 54 / 5 * ((b : ℚ) / 5)) := by
  simp [lerp, R_MIN, R_MAX, JsNum.div, JsNum.add, JsNum.sub, JsNum.mul, JsNum.neg]
  norm_num

theorem length_sortedFinite (values : List JsNum) :
    (sortedFinite values).length = (values.filter isFinite).length := by
  rw [sortedFinite, List.length_insertionSort, filter_isFinite, List.length_map]

/-- When `hi` is above every other finite value, the sorted finite values end with `hi` and all
entries before it are smaller. -/
theorem sortedFinite_of_max (values rest : List JsNum) (hi : ℚ)
    (hperm : values.Perm (fin hi :: rest))
    (hmax : ∀ y ∈ rest, isFinite y = true → lt y (fin hi) = true) :
    ∃ S : List ℚ, sortedFinite values = S ++ [hi] ∧ ∀ r ∈ S, r < hi := by
  refine ⟨sortedFinite rest, ?_, ?_⟩
  · have hlt : ∀ r ∈ sortedFinite rest, r < hi := by
      intro r hr
      have := hmax (fin r) ((mem_sortedFinite rest r).mp hr) rfl
      simpa [JsNum.lt, JsNum.gt] using this
    apply List.eq_of_perm_of_sorted (r := (· ≤ ·)) _ (sortedFinite_sorted values)
    · rw [List.Sorted, List.pairwise_append]
      refine ⟨sortedFinite_sorted rest, List.pairwise_singleton _ _, ?_⟩
      intro a ha b hb
      rw [List.mem_singleton] at hb
      subst hb
      exact le_of_lt (hlt a ha)
    · have h1 : (values.filterMap toRat).Perm (hi :: rest.filterMap toRat) := by
        have := hperm.filterMap toRat
        simpa [toRat] using this
      exact ((List.perm_insertionSort _ _).trans h1).trans
        (((List.perm_insertionSort _ _).symm.cons hi).trans (List.perm_append_singleton hi _).symm)
  · intro r hr
    have := hmax (fin r) ((mem_sortedFinite rest r).mp hr) rfl
    simpa [JsNum.lt, JsNum.gt] using this

/-- C7: with six bins, the smallest finite value of a dataset lands in bin 0 and receives radius
1.2; and when the dataset has at least two finite values, a value above every other finite value
(the dataset is `hi` plus `rest`, every finite entry of `rest` below `hi`) lands in bin 5 and
receives radius 12. -/
theorem extreme_bins (values : List JsNum) :
    (∀ lo : ℚ, fin lo ∈ values →
      (∀ y ∈ values, isFinite y = true → le (fin lo) y = true) →
      binIndex (fin lo) (quantileCuts values 6) = 0 ∧
      lerp R_MIN R_MAX (div (fin (binIndex (fin lo) (quantileCuts values 6) : ℕ)) (fin 5))
        = fin (6 / 5)) ∧
    (2 ≤ (values.filter isFinite).length →
      ∀ (hi : ℚ) (rest : List JsNum), values.Perm (fin hi :: rest) →
      (∀ y ∈ rest, isFinite y = true → lt y (fin hi) = true) →
      binIndex (fin hi) (quantileCuts values 6) = 5 ∧
      lerp R_MIN R_MAX (div (fin (binIndex (fin hi) (quantileCuts values 6) : ℕ)) (fin 5))
        = fin 12) := by
  constructor
  · intro lo hlo hmin
    have hbot : binIndex (fin lo) (quantileCuts values 6) = 0 := by
      obtain ⟨-, -, hmem⟩ := quantileCuts_spec values 6
      cases hq : quantileCuts values 6 with
      | nil => rfl
      | cons c cs =>
        apply binIndex_eq_zero_of_head
        have hc : c ∈ quantileCuts values 6 := by rw [hq]; exact List.mem_cons_self _ _
        obtain ⟨hfin, hin | ⟨hno, -⟩⟩ := hmem c hc
        · have hle := hmin c hin hfin
          cases c <;> simp_all [JsNum.le, JsNum.gt, JsNum.isFinite]
        · have := hno _ hlo
          simp [JsNum.isFinite] at this
    refine ⟨hbot, ?_⟩
    rw [hbot, radius_eq]; norm_num
  · intro htwo hi rest hhi hmax
    have hn : 2 ≤ (sortedFinite values).length := by rw [length_sortedFinite]; exact htwo
    have htop : binIndex (fin hi) (quantileCuts values 6) = 5 := by
      obtain ⟨S, hS, hlt⟩ := sortedFinite_of_max values rest hi hhi hmax
      have hlen : (quantileCuts values 6).length = 5 := quantileCuts_length values 6
      rw [← hlen]
      apply binIndex_eq_length
      intro c hc
      rw [quantileCuts_of_ne values 6 (by omega), List.mem_map] at hc
      obtain ⟨j, hj, rfl⟩ := hc
      rw [List.mem_range] at hj
      have hSlen : (sortedFinite values).length = S.length + 1 := by rw [hS]; simp
      have hidx : (j + 1) * ((sortedFinite values).length - 1) / 6 < S.length := by
        rw [hSlen, Nat.add_sub_cancel, Nat.div_lt_iff_lt_mul (by norm_num)]
        have : 1 ≤ S.length := by omega
        nlinarith
      rw [gt_fin_fin, decide_eq_true_eq]
      apply hlt
      generalize (j + 1) * ((sortedFinite values).length - 1) / 6 = idx at hidx
      rw [hS, List.getD_eq_getElem?_getD, List.getElem?_append_left hidx,
        List.getElem?_eq_getElem hidx, Option.getD_some]
      exact List.getElem_mem _
    refine ⟨htop, ?_⟩
    rw [htop, radius_eq]; norm_num

/-! ## Projection: translation -/

theorem min_add_fin (a b : JsNum) (d : ℚ) :
    JsNum.min (add a (fin d)) (add b (fin d)) = add (JsNum.min a b) (fin d) := by
  cases a <;> cases b <;> simp [JsNum.min, JsNum.add, min_add_add_right]

theorem max_add_fin (a b : JsNum) (d : ℚ) :
    JsNum.max (add a (fin d)) (add b (fin d)) = add (JsNum.max a b) (fin d) := by
  cases a <;> cases b <;> simp [JsNum.max, JsNum.add, max_add_add_right]

theorem sub_add_fin (a b : JsNum) (d : ℚ) :
    sub (add a (fin d)) (add b (fin d)) = sub a b := by
  cases a <;> cases b <;> simp [JsNum.sub, JsNum.add, JsNum.neg]
  ring

theorem mid_add_fin (a b : JsNum) (d : ℚ) :
    div (add (add a (fin d)) (add b (fin d))) (fin 2) = add (div (add a b) (fin 2)) (fin d) := by
  cases a <;> cases b <;> simp [JsNum.div, JsNum.add]
  ring

theorem bboxStep_translate (dLon dLat : ℚ) (b : BBox) (p : RawPoint) :
    bboxStep (b.translate dLon dLat) (translate dLon dLat p) =
      (bboxStep b p).translate dLon dLat := by
  simp [bboxStep, BBox.translate, translate, min_add_fin, max_add_fin]

theorem foldl_bboxStep_translate (dLon dLat : ℚ) (points : List RawPoint) (b : BBox) :
    (points.map (translate dLon dLat)).foldl bboxStep (b.translate dLon dLat) =
      (points.foldl bboxStep b).translate dLon dLat := by
  induction points generalizing b with
  | nil => rfl
  | cons p ps ih => rw [List.map_cons, List.foldl_cons, List.foldl_cons, bboxStep_translate, ih]

theorem bbox_translate (dLon dLat : ℚ) (points : List RawPoint) :
    bbox (points.map (translate dLon dLat)) = (bbox points).translate dLon dLat := by
  unfold bbox
  rw [← foldl_bboxStep_translate]
  rfl

/-- C9: adding the offset `dLon` to every `lon` and `dLat` to every `lat` leaves the screen
coordinates `x`, `y` computed by `projectToScreen` for each point unchanged, for every list of
points and every canvas size (exact arithmetic; degenerate boxes included). -/
theorem projection_translation_invariant (W H : JsNum) (dLon dLat : ℚ) (points : List RawPoint) :
    (projectToScreen W H (points.map (translate dLon dLat))).map (fun p => (p.x, p.y)) =
      (projectToScreen W H points).map (fun p => (p.x, p.y)) := by
  unfold projectToScreen
  simp only [bbox_translate, BBox.translate, sub_add_fin, mid_add_fin, List.map_map]
  apply List.map_congr_left
  intro p _
  simp only [Function.comp, translate, sub_add_fin]

/-! ## Projection: the canvas -/

theorem div_fin_fin (a b : ℚ) (hb : b ≠ 0) : div (fin a) (fin b) = fin (a / b) := by
  simp [JsNum.div, hb]

/-- C8: the source comment says the box is fitted to the canvas with padding, yet on a 100 by
100 canvas `projectToScreen` sends the points `(0, 0)` and `(1, 1)` to `(28, 92)` and
`(108, 12)`: the second `x` is larger than the canvas width, so `x <= W` fails. -/
theorem projected_outside_canvas :
    (projectToScreen (fin 100) (fin 100) sampleRaw).map (fun p => (p.x, p.y)) =
      [(fin 28, fin 92), (fin 108, fin 12)] ∧
    le (fin 108) (fin 100) = false := by
  constructor
  · simp [sampleRaw, projectToScreen, bbox, bboxStep, orElse, JsNum.truthy, JsNum.min, JsNum.max, JsNum.sub,
      JsNum.add, JsNum.neg, JsNum.mul, JsNum.div]
    norm_num
  · simp [JsNum.le]
    norm_num

/-! ## Envelope -/

theorem smoothstep_fin (u : ℚ) : smoothstep (fin u) = fin (u * u * (3 - 2 * u)) := by
  simp [smoothstep, JsNum.mul, JsNum.sub, JsNum.add, JsNum.neg, sub_eq_add_neg]

theorem clamp_fin (v : ℚ) : clamp (fin v) (fin 0) (fin 1) = fin (max 0 (min 1 v)) := by
  simp [clamp, JsNum.max, JsNum.min]

theorem smooth_range (v : ℚ) :
    le (fin 0) (smoothstep (clamp (fin v) (fin 0) (fin 1))) = true ∧
    le (smoothstep (clamp (fin v) (fin 0) (fin 1))) (fin 1) = true := by
  rw [clamp_fin, smoothstep_fin, le_fin_fin, le_fin_fin, decide_eq_true_eq, decide_eq_true_eq]
  set u := max 0 (min 1 v) with hu
  have h0 : 0 ≤ u := le_max_left _ _
  have h1 : u ≤ 1 := max_le zero_le_one (min_le_left _ _)
  constructor
  · have : 0 ≤ 3 - 2 * u := by linarith
    positivity
  · nlinarith [mul_nonneg (mul_self_nonneg (1 - u)) (by linarith : (0:ℚ) ≤ 1 + 2 * u)]

/-- C10: for positive `CYCLE_MS`, `FADE_IN_MS`, `FADE_OUT_MS` and `0 <= cyc < CYCLE_MS`, the
envelope lies in `[0, 1]`, is 0 at `cyc = 0`, and is 1 whenever
`FADE_IN_MS <= cyc <= CYCLE_MS - FADE_OUT_MS`. -/
theorem envelope_range (C F O cyc : ℚ) (_hC : 0 < C) (hF : 0 < F) (hO : 0 < O)
    (_h0 : 0 ≤ cyc) (_h1 : cyc < C) :
    (le (fin 0) (envelope (fin C) (fin F) (fin O) (fin cyc)) = true ∧
      le (envelope (fin C) (fin F) (fin O) (fin cyc)) (fin 1) = true) ∧
    envelope (fin C) (fin F) (fin O) (fin 0) = fin 0 ∧
    (F ≤ cyc → cyc ≤ C - O → envelope (fin C) (fin F) (fin O) (fin cyc) = fin 1) := by
  refine ⟨?_, ?_, ?_⟩
  · unfold envelope
    rw [div_fin_fin _ _ hF.ne']
    have e : div (sub (fin C) (fin cyc)) (fin O) = fin ((C - cyc) / O) := by
      simp [JsNum.sub, JsNum.neg, JsNum.add, div_fin_fin _ _ hO.ne', sub_eq_add_neg]
    rw [e]
    split
    · exact smooth_range _
    · split
      · exact smooth_range _
      · simp [JsNum.le]
  · unfold envelope
    have : lt (fin 0) (fin F) = true := by simp [JsNum.lt, JsNum.gt, hF]
    rw [if_pos this, div_fin_fin _ _ hF.ne', clamp_fin, smoothstep_fin]
    simp
  · intro hFc hcO
    unfold envelope
    have hn1 : ¬ lt (fin cyc) (fin F) = true := by simp [JsNum.lt, JsNum.gt, hFc]
    have hn2 : ¬ gt (fin cyc) (sub (fin C) (fin O)) = true := by
      simp [JsNum.gt, JsNum.sub, JsNum.neg, JsNum.add]
      linarith
    rw [if_neg hn1, if_neg hn2]

/-! ## Radii -/

theorem radius_mono {b1 b2 : ℕ} (h : b1 ≤ b2) :
    le (lerp R_MIN R_MAX (div (fin (b1 : ℚ)) (fin 5)))
      (lerp R_MIN R_MAX (div (fin (b2 : ℚ)) (fin 5))) = true := by
  rw [radius_eq, radius_eq, le_fin_fin, decide_eq_true_eq]
  have : (b1 : ℚ) ≤ (b2 : ℚ) := by exact_mod_cast h
  linarith

theorem radius_bounds {b : ℕ} (h : b ≤ 5) :
    le (fin (6 / 5)) (lerp R_MIN R_MAX (div (fin (b : ℚ)) (fin 5))) = true ∧
    le (lerp R_MIN R_MAX (div (fin (b : ℚ)) (fin 5))) (fin 12) = true := by
  rw [radius_eq, le_fin_fin, le_fin_fin, decide_eq_true_eq, decide_eq_true_eq]
  have h0 : (0 : ℚ) ≤ (b : ℚ) := by positivity
  have h5 : (b : ℚ) ≤ 5 := by exact_mod_cast h
  constructor <;> linarith

theorem radius_mkPoint (m : Metric) (c : Cuts) (p : Projected) (u1 u2 u3 : ℚ) :
    m.radius (mkPoint c p u1 u2 u3) =
      lerp R_MIN R_MAX (div (fin (binIndex (m.value p.d) (m.cuts c) : ℕ)) (fin 5)) := by
  cases m <;> rfl

theorem cuts_cutsOf (m : Metric) (raw : List RawPoint) :
    m.cuts (cutsOf raw) = quantileCuts (raw.map m.value) 6 := by
  cases m <;> rfl

theorem projectToScreen_lookup (W H : JsNum) (raw : List RawPoint) (i : ℕ) (q : Projected)
    (h : (projectToScreen W H raw)[i]? = some q) : raw[i]? = some q.d := by
  unfold projectToScreen at h
  simp only [List.getElem?_map, Option.map_eq_some'] at h
  obtain ⟨d, hd, rfl⟩ := h
  exact hd

theorem buildPoints_lookup (W H : JsNum) (raw : List RawPoint) (rnd : ℕ → ℚ) (i : ℕ) (p : Point)
    (h : (buildPoints W H raw rnd)[i]? = some p) :
    ∃ q : Projected, raw[i]? = some q.d ∧
      p = mkPoint (cutsOf raw) q (rnd (3 * i)) (rnd (3 * i + 1)) (rnd (3 * i + 2)) := by
  unfold buildPoints at h
  simp only [List.getElem?_mapIdx, Option.map_eq_some'] at h
  obtain ⟨q, hq, rfl⟩ := h
  exact ⟨q, projectToScreen_lookup W H raw i q hq, rfl⟩

theorem mem_loadData (W H : JsNum) (feats : List Feature) (rnd : ℕ → ℚ) (p : Point)
    (h : p ∈ loadData W H feats rnd) :
    ∃ (q : Projected) (u1 u2 u3 : ℚ), p = mkPoint (cutsOf (collectRaw feats)) q u1 u2 u3 := by
  unfold loadData at h
  rw [List.mem_insertionSort, List.mem_iff_getElem?] at h
  obtain ⟨i, hi⟩ := h
  obtain ⟨q, -, hp⟩ := buildPoints_lookup W H _ rnd i p hi
  exact ⟨q, _, _, _, hp⟩

/-- C4: in the points built from `raw` (before the final sort by `delay`), the radius of a
metric is `lerp(R_MIN, R_MAX, binIndex(v, cuts) / 5)` with `cuts` the quantile cuts of that
metric for six bins, and of two records with `v1 <= v2` the second gets a radius at least as
large as the first. -/
theorem radius_monotone_in_metric (W H : JsNum) (raw : List RawPoint) (rnd : ℕ → ℚ) (m : Metric)
    (i j : ℕ) (d1 d2 : RawPoint) (p1 p2 : Point)
    (hd1 : raw[i]? = some d1) (hd2 : raw[j]? = some d2)
    (hp1 : (buildPoints W H raw rnd)[i]? = some p1)
    (hp2 : (buildPoints W H raw rnd)[j]? = some p2)
    (hle : le (m.value d1) (m.value d2) = true) :
    m.radius p1 = lerp R_MIN R_MAX
      (div (fin (binIndex (m.value d1) (quantileCuts (raw.map m.value) 6) : ℕ)) (fin 5)) ∧
    m.radius p2 = lerp R_MIN R_MAX
      (div (fin (binIndex (m.value d2) (quantileCuts (raw.map m.value) 6) : ℕ)) (fin 5)) ∧
    le (m.radius p1) (m.radius p2) = true := by
  obtain ⟨q1, hq1, rfl⟩ := buildPoints_lookup W H raw rnd i p1 hp1
  obtain ⟨q2, hq2, rfl⟩ := buildPoints_lookup W H raw rnd j p2 hp2
  rw [hd1] at hq1
  rw [hd2] at hq2
  cases Option.some.inj hq1
  cases Option.some.inj hq2
  rw [radius_mkPoint, radius_mkPoint, cuts_cutsOf]
  exact ⟨rfl, rfl, radius_mono (binIndex_mono _ hle)⟩

/-- C6: bin 0 gives radius 1.2, bin 5 gives radius 12, the radius is non-decreasing in the bin,
and every radius of every point produced by `loadData` lies in `[1.2, 12]`. -/
theorem radius_range :
    lerp R_MIN R_MAX (div (fin 0) (fin 5)) = fin (6 / 5) ∧
    lerp R_MIN R_MAX (div (fin 5) (fin 5)) = fin 12 ∧
    (∀ b1 b2 : ℕ, b1 ≤ b2 →
      le (lerp R_MIN R_MAX (div (fin (b1 : ℚ)) (fin 5)))
        (lerp R_MIN R_MAX (div (fin (b2 : ℚ)) (fin 5))) = true) ∧
    ∀ (W H : JsNum) (feats : List Feature) (rnd : ℕ → ℚ) (p : Point),
      p ∈ loadData W H feats rnd → ∀ m : Metric,
        le (fin (6 / 5)) (m.radius p) = true ∧ le (m.radius p) (fin 12) = true := by
  refine ⟨?_, ?_, fun b1 b2 h => radius_mono h, ?_⟩
  · have := radius_eq 0
    simpa using this
  · have := radius_eq 5
    norm_num at this
    exact this
  · intro W H feats rnd p hp m
    obtain ⟨q, u1, u2, u3, rfl⟩ := mem_loadData W H feats rnd p hp
    rw [radius_mkPoint]
    apply radius_bounds
    have h1 := binIndex_le_length (m.value q.d) (m.cuts (cutsOf (collectRaw feats)))
    rw [cuts_cutsOf, quantileCuts_length] at h1
    rw [cuts_cutsOf]
    exact h1

theorem binIndex_nan (cuts : List JsNum) : binIndex nan cuts = 0 := by
  cases cuts <;> simp [binIndex, JsNum.gt]

theorem binIndex_ninf (cuts : List JsNum) : binIndex ninf cuts = 0 := by
  cases cuts with
  | nil => rfl
  | cons c cs => cases c <;> simp [binIndex, JsNum.gt]

/-- C5 (amended): for `x` equal to `NaN` or `-Infinity` and every list `cuts`, `binIndex x cuts`
is 0, so a point whose metric value is `NaN`, `-Infinity` or missing (read as `NaN`) gets
radius `R_MIN`. -/
theorem nan_and_ninf_low_bin (x : JsNum) (hx : x = nan ∨ x = ninf) :
    (∀ cuts : List JsNum, binIndex x cuts = 0) ∧
    (∀ (c : Cuts) (m : Metric) (p : Projected) (u1 u2 u3 : ℚ), m.value p.d = x →
      m.radius (mkPoint c p u1 u2 u3) = R_MIN) ∧
    toNumber none = nan := by
  have hb : ∀ cuts : List JsNum, binIndex x cuts = 0 := by
    intro cuts
    rcases hx with rfl | rfl
    · exact binIndex_nan cuts
    · exact binIndex_ninf cuts
  refine ⟨hb, ?_, rfl⟩
  intro c m p u1 u2 u3 hv
  rw [radius_mkPoint, hv, hb, radius_eq]
  simp [R_MIN]

/-- C5 (counterexample): `+Infinity` is not finite, yet `binIndex` puts it in bin 1 of the cut
list `[0]` and in bin 5 of the cuts of the dataset `[+Infinity]`. -/
theorem pinf_not_low_bin :
    isFinite pinf = false ∧ binIndex pinf [fin 0] = 1 ∧ binIndex pinf (quantileCuts [pinf] 6) = 5 := by
  decide

/-! ## Contracts of `quantileCuts` and `binIndex` -/

/-- C1: for every array `values` and every bin count `k`, `quantileCuts values k` has exactly
`k - 1` entries, is non-decreasing, and each entry is finite and is either an element of
`values` or, when `values` has no finite element, `0`. -/
theorem quantileCuts_contract (values : List JsNum) (k : ℕ) :
    (quantileCuts values k).length = k - 1 ∧
    (quantileCuts values k).Pairwise (fun a b => le a b = true) ∧
    ∀ c ∈ quantileCuts values k, isFinite c = true ∧
      (c ∈ values ∨ ((∀ v ∈ values, isFinite v = false) ∧ c = fin 0)) :=
  quantileCuts_spec values k

/-- C2: for every `x` and every non-decreasing list `cuts` of `k - 1` numbers, `binIndex x cuts`
is the number of entries of `cuts` strictly less than `x` and is at most `k - 1`; this holds in
particular for the cuts returned by `quantileCuts`. -/
theorem binIndex_counts_smaller_cuts (x : JsNum) (cuts : List JsNum) (k : ℕ)
    (hlen : cuts.length = k - 1) (hs : cuts.Pairwise fun a b => le a b = true) :
    (binIndex x cuts = cuts.countP (fun c => lt c x) ∧ binIndex x cuts ≤ k - 1) ∧
    ∀ values : List JsNum,
      binIndex x (quantileCuts values k) = (quantileCuts values k).countP (fun c => lt c x) ∧
      binIndex x (quantileCuts values k) ≤ k - 1 := by
  refine ⟨⟨binIndex_eq_countP x cuts hs, ?_⟩, fun values => ⟨?_, ?_⟩⟩
  · rw [← hlen]
    exact binIndex_le_length x cuts
  · exact binIndex_eq_countP x _ (quantileCuts_spec values k).2.1
  · have := binIndex_le_length x (quantileCuts values k)
    rwa [quantileCuts_length] at this

/-- C3: `binIndex` is monotonic in `x`: for every list `cuts`, `x1 <= x2` gives
`binIndex x1 cuts <= binIndex x2 cuts`. -/
theorem binIndex_monotone (cuts : List JsNum) (x1 x2 : JsNum) (h : le x1 x2 = true) :
    binIndex x1 cuts ≤ binIndex x2 cuts :=
  binIndex_mono cuts h

/-! ## Instances on concrete data -/

theorem sortedFinite_example : sortedFinite [fin 1, fin 5, fin 100] = [1, 5, 100] := by
  simp [sortedFinite, toRat, List.insertionSort, List.orderedInsert]

theorem quantileCuts_example :
    quantileCuts [fin 1, fin 5, fin 100] 6 = [fin 1, fin 1, fin 5, fin 5, fin 5] := by
  rw [quantileCuts_of_ne _ _ (by rw [sortedFinite_example]; decide), sortedFinite_example]
  decide

theorem quantileCuts_contract_witness :
    (quantileCuts [fin 1, fin 5, fin 100] 6).length = 6 - 1 ∧
    (isFinite (fin 5) = true ∧ (fin 5 ∈ [fin 1, fin 5, fin 100] ∨
      ((∀ v ∈ [fin 1, fin 5, fin 100], isFinite v = false) ∧ fin 5 = fin 0))) :=
  ⟨(quantileCuts_contract [fin 1, fin 5, fin 100] 6).1,
    (quantileCuts_contract [fin 1, fin 5, fin 100] 6).2.2 (fin 5)
      (by rw [quantileCuts_example]; simp)⟩

theorem binIndex_counts_smaller_cuts_witness :
    binIndex (fin 5) [fin 1, fin 1, fin 5, fin 5, fin 5] =
      [fin 1, fin 1, fin 5, fin 5, fin 5].countP (fun c => lt c (fin 5)) ∧
    binIndex (fin 5) [fin 1, fin 1, fin 5, fin 5, fin 5] ≤ 6 - 1 :=
  (binIndex_counts_smaller_cuts (fin 5) [fin 1, fin 1, fin 5, fin 5, fin 5] 6 rfl
    (by simp [JsNum.le])).1

theorem binIndex_monotone_witness :
    le (fin 1) (fin 100) = true ∧
    binIndex (fin 1) [fin 1, fin 1, fin 5, fin 5, fin 5] ≤
      binIndex (fin 100) [fin 1, fin 1, fin 5, fin 5, fin 5] :=
  ⟨by simp [JsNum.le],
    binIndex_monotone [fin 1, fin 1, fin 5, fin 5, fin 5] (fin 1) (fin 100)
      (by simp [JsNum.le])⟩

theorem extreme_bins_witness :
    (binIndex (fin 1) (quantileCuts [fin 1, fin 5, fin 100] 6) = 0 ∧
      lerp R_MIN R_MAX
        (div (fin (binIndex (fin 1) (quantileCuts [fin 1, fin 5, fin 100] 6) : ℕ)) (fin 5))
        = fin (6 / 5)) ∧
    (binIndex (fin 100) (quantileCuts [fin 1, fin 5, fin 100] 6) = 5 ∧
      lerp R_MIN R_MAX
        (div (fin (binIndex (fin 100) (quantileCuts [fin 1, fin 5, fin 100] 6) : ℕ)) (fin 5))
        = fin 12) ∧
    binIndex (fin 1) (quantileCuts [fin 1, fin 2, fin 2] 6) = 0 :=
  ⟨(extreme_bins [fin 1, fin 5, fin 100]).1 1 (by simp)
      (by simp [JsNum.le, JsNum.isFinite]),
    (extreme_bins [fin 1, fin 5, fin 100]).2 (by decide) 100 [fin 1, fin 5]
      (List.perm_append_singleton (fin 100) [fin 1, fin 5])
      (by simp [JsNum.lt, JsNum.gt, JsNum.isFinite]; norm_num),
    ((extreme_bins [fin 1, fin 2, fin 2]).1 1 (by simp)
      (by simp [JsNum.le, JsNum.isFinite])).1⟩

theorem nan_and_ninf_low_bin_witness :
    binIndex nan [fin 1, fin 1, fin 5, fin 5, fin 5] = 0 ∧
    Metric.tab.radius
      (mkPoint (cutsOf []) ⟨⟨fin 0, fin 0, nan, fin 0, fin 0⟩, fin 0, fin 0⟩ 0 0 0) = R_MIN :=
  ⟨(nan_and_ninf_low_bin nan (Or.inl rfl)).1 _,
    (nan_and_ninf_low_bin nan (Or.inl rfl)).2.1 _ Metric.tab _ 0 0 0 rfl⟩

theorem envelope_range_witness :
    (le (fin 0) (envelope (fin 10) (fin 2) (fin 3) (fin 5)) = true ∧
      le (envelope (fin 10) (fin 2) (fin 3) (fin 5)) (fin 1) = true) ∧
    envelope (fin 10) (fin 2) (fin 3) (fin 0) = fin 0 ∧
    envelope (fin 10) (fin 2) (fin 3) (fin 5) = fin 1 :=
  have h := envelope_range 10 2 3 5 (by norm_num) (by norm_num) (by norm_num) (by norm_num)
    (by norm_num)
  ⟨h.1, h.2.1, h.2.2 (by norm_num) (by norm_num)⟩

theorem radius_monotone_in_metric_witness :
    le (fin 1) (fin 2) = true ∧
    le (Metric.tab.radius ((buildPoints (fin 100) (fin 100) sampleRaw fun _ => 0).get
          ⟨0, by decide⟩))
      (Metric.tab.radius ((buildPoints (fin 100) (fin 100) sampleRaw fun _ => 0).get
          ⟨1, by decide⟩)) = true :=
  ⟨by simp [JsNum.le],
    (radius_monotone_in_metric (fin 100) (fin 100) sampleRaw (fun _ => 0) Metric.tab 0 1
      ⟨fin 0, fin 0, fin 1, fin 0, fin 0⟩ ⟨fin 1, fin 1, fin 2, fin 0, fin 0⟩ _ _ rfl rfl
      (List.getElem?_eq_getElem _) (List.getElem?_eq_getElem _) (by simp [Metric.value, JsNum.le])).2.2⟩

theorem radius_range_witness :
    le (lerp R_MIN R_MAX (div (fin ((2 : ℕ) : ℚ)) (fin 5)))
      (lerp R_MIN R_MAX (div (fin ((3 : ℕ) : ℚ)) (fin 5))) = true ∧
    le (fin (6 / 5)) (Metric.lap.radius
      ((loadData (fin 100) (fin 100) sampleFeatures fun _ => 0).get ⟨0, by decide⟩)) = true ∧
    le (Metric.phone.radius
      ((loadData (fin 100) (fin 100) sampleFeatures fun _ => 0).get ⟨0, by decide⟩)) (fin 12) = true :=
  ⟨radius_range.2.2.1 2 3 (by decide),
    (radius_range.2.2.2 _ _ _ _ _ (List.get_mem _ _ _) Metric.lap).1,
    (radius_range.2.2.2 _ _ _ _ _ (List.get_mem _ _ _) Metric.phone).2⟩

end Hero
